import Mathlib

/-!
Shallow embedding of the go-bloom repository (package bloom): a partitioned
Bloom filter over an in-memory bit vector or a Redis backend.

Sources embedded here:
 - bloom.go : types BF and filter, filterSetup, BF.Append, BF.Save, BF.Exists,
   BF.Exist, BF.Load, BF.Add, filter.hashValue, filter.hashedValue;
 - redis.go : RedisStorage, NewRedisStorage, RedisStorage.init, Append, Save,
   Exists.

Modelling conventions:
 - Go byte slices are lists of naturals below 256; Go uint is a natural with
   arithmetic taken modulo 2^64 exactly where the Go operation wraps.
 - The Redis server is a map from key names to the set of bit positions that
   hold 1 (a key that was never written is absent, and GETBIT on it reads 0,
   as in Redis), together with a TTL table written by EXPIRE.
 - Network effects are an oracle (Net) deciding which commands fail; a failed
   redigo call yields the Go zero value together with a non-nil error, exactly
   as redis.Bool / redis.Int do.  Pipelined Send calls only buffer; their
   effect reaches the server when the Flush succeeds, and is lost when the
   Flush fails.
 - Goroutine fan-out in BF.Save is modelled sequentially: each sub-filter flushes
   its own private storage, and flush order is irrelevant to the final server
   (each unit touches only its own key, and SETBIT effects commute on the
   getbit view proved below).
-/

namespace GoBloom

/-- Go errors are modelled by an option: none is the nil error. -/
abbrev GoErr := Option Unit

/-- hash/fnv: the 64-bit FNV prime used by fnv.New64. -/
def fnvPrime : Nat := 1099511628211

/-- hash/fnv: the 64-bit FNV offset basis used by fnv.New64. -/
def fnvOffset : Nat := 14695981039346656037

/-- hash/fnv New64 (FNV-1, 64 bit): starting from the offset basis, for each
input byte multiply by the prime (wrapping at 2^64) and xor the byte in. -/
def fnv1_64 (bytes : List Nat) : Nat :=
  bytes.foldl (fun h byte => Nat.xor ((h * fnvPrime) % 2 ^ 64) (byte % 256)) fnvOffset

/-- hash.Hash64.Sum(nil): the eight big-endian bytes of the 64-bit state. -/
def sum64 (h : Nat) : List Nat :=
  [h / 2 ^ 56 % 256, h / 2 ^ 48 % 256, h / 2 ^ 40 % 256, h / 2 ^ 32 % 256,
   h / 2 ^ 24 % 256, h / 2 ^ 16 % 256, h / 2 ^ 8 % 256, h % 256]

/-- binary.BigEndian.Uint32: four bytes folded big-endian into one value. -/
def beUint32 (bytes : List Nat) : Nat :=
  bytes.foldl (fun acc byte => acc * 256 + byte) 0

/-- filter.hashValue: reset the shared fnv state, write the value, take the
eight-byte digest, and read two big-endian 32-bit words a (digest[0:4]) and
b (digest[4:8]).  The fnv instance is shared by all sub-filters and reset on
every call, so the result depends on the value alone; the model therefore
takes no filter argument. -/
def hashValue (value : List Nat) : Nat × Nat :=
  let sum := sum64 (fnv1_64 value)
  (beUint32 (sum.take 4), beUint32 (sum.drop 4))

/-- filter.hashedValue: a verbatim second copy of hashValue in the source,
used by BF.Add and BF.Exist (hashValue is used by BF.Append and BF.Exists). -/
def hashedValue (value : List Nat) : Nat × Nat :=
  let sum := sum64 (fnv1_64 value)
  (beUint32 (sum.take 4), beUint32 (sum.drop 4))

/-- The network oracle: which redis commands fail on which keys.  existsFail
fails the EXISTS check in NewRedisStorage, getbitFail the GETBIT in
RedisStorage.Exists, flushFail the conn.Flush closing a pipelined batch. -/
structure Net where
  existsFail : String → Bool
  getbitFail : String → Nat → Bool
  flushFail : String → Bool

/-- A network that never fails. -/
def Net.ok : Net := ⟨fun _ => false, fun _ _ => false, fun _ => false⟩

/-- The Redis server state: per existing key the list of bit positions whose
bit is 1, and per key an optional TTL (written by EXPIRE). -/
structure Server where
  data : String → Option (List Nat)
  ttl : String → Option Int

/-- EXISTS key. -/
def Server.keyExists (srv : Server) (k : String) : Bool :=
  (srv.data k).isSome

/-- GETBIT key bit: 0 for an absent key, else membership in the 1-set. -/
def Server.getbit (srv : Server) (k : String) (bit : Nat) : Bool :=
  decide (bit ∈ (srv.data k).getD [])

/-- SETBIT key bit v: creates the key when absent; v = 1 adds the position to
the 1-set, any other v removes it. -/
def Server.setbit (srv : Server) (k : String) (bit v : Nat) : Server :=
  { srv with
    data := fun k2 =>
      if k2 = k then
        some (if v = 1 then bit :: (srv.data k).getD []
              else ((srv.data k).getD []).filter (fun x => x ≠ bit))
      else srv.data k2 }

/-- EXPIRE key seconds: records the TTL when the key exists, else a no-op. -/
def Server.expire (srv : Server) (k : String) (seconds : Int) : Server :=
  if (srv.data k).isSome then
    { srv with ttl := fun k2 => if k2 = k then some seconds else srv.ttl k2 }
  else srv

/-- redis.go: RedisStorage holds the key, the bit-space size and the queue of
pending bit indices (the pool is part of the Net/Server environment). -/
structure RedisStorage where
  key : String
  size : Nat
  queue : List Nat

/-- RedisStorage.init: Send SETBIT key i 0 for every i < size, Send EXPIRE,
then Flush.  Send errors are not checked in the source (they only buffer);
the buffered commands reach the server exactly when the Flush succeeds. -/
def RedisStorage.init (net : Net) (srv : Server) (s : RedisStorage)
    (expiredAfterSeconds : Int) : GoErr × Server :=
  if net.flushFail s.key then (some (), srv)
  else
    (none,
     Server.expire
       ((List.range s.size).foldl (fun sv i => Server.setbit sv s.key i 0) srv)
       s.key expiredAfterSeconds)

/-- NewRedisStorage: build the storage with an empty queue, check EXISTS key
(redis.Bool returns false alongside a failure), and when the key is absent run
init, propagating its error.  Returns (store, exists, err) and the server. -/
def NewRedisStorage (net : Net) (srv : Server) (key : String) (size : Nat)
    (expiredAfterSeconds : Int) : (RedisStorage × Bool × GoErr) × Server :=
  let store : RedisStorage := ⟨key, size, []⟩
  if net.existsFail key then ((store, false, some ()), srv)
  else if srv.keyExists key then ((store, true, none), srv)
  else
    match store.init net srv expiredAfterSeconds with
    | (some e, srv2) => ((store, false, some e), srv2)
    | (none, srv2) => ((store, false, none), srv2)

/-- RedisStorage.Append: push the bit index onto the queue. -/
def RedisStorage.Append (s : RedisStorage) (bit : Nat) : RedisStorage :=
  { s with queue := s.queue ++ [bit] }

/-- RedisStorage.Save: return at once when the queue is empty; otherwise Send
SETBIT key bit 1 for every queued bit and Flush.  The source checks no error
from the Flush and, notably, never clears the queue; the receiver is returned
unchanged alongside the new server. -/
def RedisStorage.Save (net : Net) (srv : Server) (s : RedisStorage) :
    RedisStorage × Server :=
  if s.queue.length ≤ 0 then (s, srv)
  else if net.flushFail s.key then (s, srv)
  else (s, s.queue.foldl (fun sv bit => Server.setbit sv s.key bit 1) srv)

/-- RedisStorage.Exists: GETBIT key bit through redis.Int; on failure redigo
yields 0 with the error and the method returns the zero ret value with it,
otherwise ret is (bitValue == 1). -/
def RedisStorage.Exists (net : Net) (srv : Server) (s : RedisStorage)
    (bit : Nat) : Bool × GoErr :=
  if net.getbitFail s.key bit then (false, some ())
  else
    let bitValue : Nat := if srv.getbit s.key bit then 1 else 0
    (bitValue == 1, none)

/-- bloom.go: one sub-filter; size is its partition size, multiplier its
1-based position.  The shared hasher is the pure hashValue above; the nil
storage a fresh filterSetup leaves behind is the empty RedisStorage. -/
structure filter where
  size : Nat
  storage : RedisStorage
  multiplier : Nat

/-- BF holds all the storage filters. -/
structure BF where
  filters : List filter

/-- The bit index every operation derives for a value: with (a, b) the two
digest words, (a + b*multiplier) in wrapping uint arithmetic, reduced mod the
partition size. -/
def filter.bitIndex (f : filter) (value : List Nat) : Nat :=
  let p := hashValue value
  (p.1 + p.2 * f.multiplier) % 2 ^ 64 % f.size

/-- Fuel-bounded floor of log2, by structural recursion so that concrete
instances reduce in the kernel. -/
def log2fuel : Nat → Nat → Nat
  | 0, _ => 0
  | fuel + 1, n => if 2 ≤ n then log2fuel fuel (n / 2) + 1 else 0

/-- Floor of log2 of a positive natural (fuel n is always enough). -/
def nlog2 (n : Nat) : Nat := log2fuel n n

/-- Round the quotient num/den to the nearest integer, ties to even: the
fraction part (num mod den)/den is compared with one half by comparing twice
the remainder with the divisor. -/
def rnDivSig (num den : Nat) : Nat :=
  if den < 2 * (num % den) ∨ (2 * (num % den) = den ∧ (num / den) % 2 = 1)
  then num / den + 1 else num / den

/-- Go float64(n) for a uint n: round the integer to the nearest binary64
value, ties to even.  Integers below 2^53 are exactly representable and come
back unchanged; a larger n is rounded at granularity 2^(b-52) where
b = floor(log2 n), and the result is again an integer.  No overflow occurs
below 2^64. -/
def float64Nat (n : Nat) : Nat :=
  if n < 2 ^ 53 then n
  else rnDivSig n (2 ^ (nlog2 n - 52)) * 2 ^ (nlog2 n - 52)

/-- math.Ceil of the correctly rounded binary64 quotient x/y, for naturals
1 ≤ x and 1 ≤ y ≤ 2^64 (exactly the operands Go produces after the float64
conversions).  b = floor(log2 (x/y)) is nlog2 (x*2^64/y) - 64, so with
bp = b + 64 the quotient's binary64 ulp is 2^(b-52) = 2^(bp-116).  When the
ulp is at least 1 the significand x / (y*2^(bp-116)) is rounded to the
nearest integer (ties to even) and scaled back, an integer that Ceil leaves
alone; when the ulp is 2^-(116-bp) the significand x*2^(116-bp) / y is
rounded likewise and Ceil divides back up. -/
def floatCeilDiv (x y : Nat) : Nat :=
  if 116 ≤ nlog2 (x * 2 ^ 64 / y) then
    rnDivSig x (y * 2 ^ (nlog2 (x * 2 ^ 64 / y) - 116))
      * 2 ^ (nlog2 (x * 2 ^ 64 / y) - 116)
  else
    (rnDivSig (x * 2 ^ (116 - nlog2 (x * 2 ^ 64 / y))) y
        + 2 ^ (116 - nlog2 (x * 2 ^ 64 / y)) - 1)
      / 2 ^ (116 - nlog2 (x * 2 ^ 64 / y))

/-- uint(math.Ceil(float64(size) / float64(hashIter))): both conversions
round to binary64, the division is correctly rounded, math.Ceil is exact on
binary64 and the uint conversion truncates the (integral) result.  A zero
size gives 0 exactly as Go does; for hashIter = 0 Go's quotient is +Inf with
an unspecified uint conversion, and the model returns 0 there, a value
filterSetup never uses (it builds no filter). -/
def partitionSizeGo (size hashIter : Nat) : Nat :=
  if size = 0 ∨ hashIter = 0 then 0
  else floatCeilDiv (float64Nat size) (float64Nat hashIter)

/-- filterSetup: partitionSize = uint(math.Ceil(float64(size) /
float64(hashIter))) through the binary64 model above, and one filter per
hash iteration with multiplier k+1 and no storage attached yet. -/
def filterSetup (size hashIter : Nat) : List filter :=
  let partitionSize := partitionSizeGo size hashIter
  (List.range hashIter).map (fun k => ⟨partitionSize, ⟨"", 0, []⟩, k + 1⟩)

/-- The loop body of NewRedis: for each filter build a RedisStorage under key
<base>.<multiplier>, stopping at the first error with the filters updated so
far (Go returns the last iteration's exist flag). -/
def newRedisLoop (net : Net) (key : String) (expiredAfterSeconds : Int) :
    Server → List filter → (List filter × Bool × GoErr) × Server
  | srv, [] => (([], false, none), srv)
  | srv, f :: rest =>
    let r := NewRedisStorage net srv (key ++ "." ++ toString f.multiplier)
      f.size expiredAfterSeconds
    let f2 : filter := { f with storage := r.1.1 }
    match r.1.2.2 with
    | some e => ((f2 :: rest, r.1.2.1, some e), r.2)
    | none =>
      match rest with
      | [] => (([f2], r.1.2.1, none), r.2)
      | g :: gs =>
        let rc := newRedisLoop net key expiredAfterSeconds r.2 (g :: gs)
        ((f2 :: rc.1.1, rc.1.2.1, rc.1.2.2), rc.2)

/-- NewRedis: filterSetup then the storage-attaching loop. -/
def NewRedis (net : Net) (srv : Server) (key : String) (size hashIter : Nat)
    (expiredAfterSeconds : Int) : (BF × Bool × GoErr) × Server :=
  let r := newRedisLoop net key expiredAfterSeconds srv (filterSetup size hashIter)
  ((⟨r.1.1⟩, r.1.2.1, r.1.2.2), r.2)

/-- BF.Append: for every sub-filter, hash the value (the source calls
hashValue here) and queue the derived bit index on that sub-filter's
storage. -/
def BF.Append (b : BF) (value : List Nat) : BF :=
  ⟨b.filters.map (fun f => { f with storage := f.storage.Append (f.bitIndex value) })⟩

/-- One value of BF.Add's outer loop: for every sub-filter, queue the derived
bit index (the source calls hashedValue here, the verbatim copy of
hashValue, so the index is the same bitIndex). -/
def appendValue (b : BF) (value : List Nat) : BF :=
  ⟨b.filters.map (fun f => { f with storage := f.storage.Append (f.bitIndex value) })⟩

/-- BF.Add: queue every value on every sub-filter (values outer, filters
inner). -/
def BF.Add (b : BF) (values : List (List Nat)) : BF :=
  values.foldl appendValue b

/-- The sequential model of BF.Save's fan-out/join: each sub-filter's storage
flushes its queue in turn.  No field of the BF is written (Save clears no
queue), so only the server is returned. -/
def saveAll (net : Net) : List filter → Server → Server
  | [], srv => srv
  | f :: rest, srv => saveAll net rest (f.storage.Save net srv).2

/-- BF.Save: flush every sub-filter's storage; any flush error is discarded
by the source. -/
def BF.Save (net : Net) (srv : Server) (b : BF) : Server :=
  saveAll net b.filters srv

/-- The loop of BF.Exists with its named return values (exists, err): each
iteration overwrites both with the storage query, returns them as soon as
exists is false, and after a full pass returns true with the last err. -/
def existsLoop (net : Net) (srv : Server) (value : List Nat) :
    List filter → GoErr → Bool × GoErr
  | [], err => (true, err)
  | f :: rest, _ =>
    let r := RedisStorage.Exists net srv f.storage (f.bitIndex value)
    if r.1 then existsLoop net srv value rest r.2 else r

/-- BF.Exists: the short-circuiting conjunction over sub-filters. -/
def BF.Exists (net : Net) (srv : Server) (b : BF) (value : List Nat) :
    Bool × GoErr :=
  existsLoop net srv value b.filters none

/-- The inner loop of BF.Exist over the sub-filters for one value: cur is the
current content of the result slot (exists[index]); an error returns before
the slot is written, otherwise the slot is overwritten with this sub-filter's
bit and the loop continues — the source has no conjunction and no
short-circuit here. -/
def existInner (net : Net) (srv : Server) (value : List Nat) :
    Bool → List filter → Bool × GoErr
  | cur, [] => (cur, none)
  | cur, f :: rest =>
    let r := RedisStorage.Exists net srv f.storage (f.bitIndex value)
    match r.2 with
    | some e => (cur, some e)
    | none => existInner net srv value r.1 rest

/-- The outer loop of BF.Exist: the result slice starts as make([]bool, n)
(all false) and an error aborts the batch, returning the slots written so
far with the remaining ones still false. -/
def existOuter (net : Net) (srv : Server) (filters : List filter) :
    List (List Nat) → List Bool × GoErr
  | [] => ([], none)
  | v :: vs =>
    let r := existInner net srv v false filters
    match r.2 with
    | some e => (r.1 :: List.replicate vs.length false, some e)
    | none =>
      let rest := existOuter net srv filters vs
      (r.1 :: rest.1, rest.2)

/-- BF.Exist: the batch membership check. -/
def BF.Exist (net : Net) (srv : Server) (b : BF) (values : List (List Nat)) :
    List Bool × GoErr :=
  existOuter net srv b.filters values

/-- BF.Load: Add then Save; the declared return values (exists []bool, err
error) are never assigned, so the nil slice (none) and nil error come back. -/
def BF.Load (net : Net) (srv : Server) (b : BF) (values : List (List Nat)) :
    (BF × Server) × (Option (List Bool) × GoErr) :=
  let b2 := b.Add values
  let srv2 := BF.Save net srv b2
  ((b2, srv2), (none, none))

/-! ### Helper lemmas -/

/-- hashedValue is the verbatim copy of hashValue the source keeps. -/
lemma hashedValue_eq_hashValue : hashedValue = hashValue := rfl

/-- BF.Append on one value coincides with the body of BF.Add on that value. -/
lemma append_eq_appendValue (b : BF) (v : List Nat) :
    BF.Append b v = appendValue b v := rfl

/-- BF.Add on a single value is BF.Append on it. -/
lemma add_single_eq_append (b : BF) (v : List Nat) :
    BF.Add b [v] = BF.Append b v := rfl

/-- A big-endian fold of four bytes stays below 2^32. -/
lemma beUint32_lt (b0 b1 b2 b3 : Nat) (h0 : b0 < 256) (h1 : b1 < 256)
    (h2 : b2 < 256) (h3 : b3 < 256) : beUint32 [b0, b1, b2, b3] < 2 ^ 32 := by
  have e32 : (2 : Nat) ^ 32 = 4294967296 := by norm_num
  simp only [beUint32, List.foldl]
  omega

/-- The first digest word is a 32-bit value. -/
lemma hashValue_fst_lt (v : List Nat) : (hashValue v).1 < 2 ^ 32 := by
  have e : (hashValue v).1 =
      beUint32 [fnv1_64 v / 2 ^ 56 % 256, fnv1_64 v / 2 ^ 48 % 256,
        fnv1_64 v / 2 ^ 40 % 256, fnv1_64 v / 2 ^ 32 % 256] := rfl
  rw [e]
  exact beUint32_lt _ _ _ _ (Nat.mod_lt _ (by norm_num))
    (Nat.mod_lt _ (by norm_num)) (Nat.mod_lt _ (by norm_num))
    (Nat.mod_lt _ (by norm_num))

/-- The second digest word is a 32-bit value. -/
lemma hashValue_snd_lt (v : List Nat) : (hashValue v).2 < 2 ^ 32 := by
  have e : (hashValue v).2 =
      beUint32 [fnv1_64 v / 2 ^ 24 % 256, fnv1_64 v / 2 ^ 16 % 256,
        fnv1_64 v / 2 ^ 8 % 256, fnv1_64 v % 256] := rfl
  rw [e]
  exact beUint32_lt _ _ _ _ (Nat.mod_lt _ (by norm_num))
    (Nat.mod_lt _ (by norm_num)) (Nat.mod_lt _ (by norm_num))
    (Nat.mod_lt _ (by norm_num))

/-! ### Claim theorems -/

/-- C10: BF.Load returns the nil boolean slice and the nil error for every
input, whatever the filter or backend state: its declared return values are
never assigned in the source. -/
theorem c10_load_returns_nil (net : Net) (srv : Server) (b : BF)
    (values : List (List Nat)) :
    (BF.Load net srv b values).2 = (none, none) := rfl

/-- C8: BF.Load is exactly BF.Add on all the values followed by BF.Save, both
in the filter/backend state it produces and in its (unassigned) return
values. -/
theorem c8_load_is_add_then_save (net : Net) (srv : Server) (b : BF)
    (values : List (List Nat)) :
    BF.Load net srv b values =
      ((BF.Add b values, BF.Save net srv (BF.Add b values)), (none, none)) := rfl

/-- C3 (amended): RedisStorage.Save leaves the storage — in particular its
pending queue — completely unchanged; the source never clears the queue after
flushing, so a later Save re-sends the same indices. -/
theorem c3_save_leaves_queue (net : Net) (srv : Server) (s : RedisStorage) :
    (RedisStorage.Save net srv s).1 = s := by
  by_cases h1 : s.queue.length ≤ 0 <;> by_cases h2 : net.flushFail s.key <;>
    simp [RedisStorage.Save, h1, h2]

/-- C3 (counterexample): a successful flush of the queued index 3 (the bit
really reaches the backend) after which the pending queue is not empty,
contradicting the claim that a successful Save clears it. -/
theorem c3_queue_not_cleared_cex :
    (RedisStorage.Save Net.ok ⟨fun _ => none, fun _ => none⟩
        ⟨"k", 8, [3]⟩).2.getbit "k" 3 = true
  ∧ ¬((RedisStorage.Save Net.ok ⟨fun _ => none, fun _ => none⟩
        ⟨"k", 8, [3]⟩).1.queue = []) := by
  constructor
  · rfl
  · decide

/-- C2 (code bug): with two sub-filters (partition size 10, multipliers 1 and
2 on keys k.1 and k.2) and a backend where the empty value's bit is 0 in k.1
but 1 in k.2, the batch BF.Exist answers true for the value — it overwrites
the per-value slot with each sub-filter's bit and keeps only the last one —
while the single-value BF.Exists answers false, the conjunction the spec
describes for both forms. -/
theorem c2_exist_keeps_last_subfilter_only :
    BF.Exist Net.ok
      ⟨fun k2 => if k2 = "k.2" then some [0] else none, fun _ => none⟩
      ⟨[⟨10, ⟨"k.1", 10, []⟩, 1⟩, ⟨10, ⟨"k.2", 10, []⟩, 2⟩]⟩ [[]] = ([true], none)
  ∧ BF.Exists Net.ok
      ⟨fun k2 => if k2 = "k.2" then some [0] else none, fun _ => none⟩
      ⟨[⟨10, ⟨"k.1", 10, []⟩, 1⟩, ⟨10, ⟨"k.2", 10, []⟩, 2⟩]⟩ [] = (false, none) := by
  constructor <;> rfl

/-- C4: the bit index every operation derives equals (a + i*b) mod the
partition size, with a and b the two big-endian 32-bit digest words and i the
sub-filter's multiplier; the wrapping uint addition in the source cannot
overflow while the multiplier is at most 2^32. -/
theorem c4_bit_index_formula (f : filter) (v : List Nat)
    (h : f.multiplier ≤ 2 ^ 32) :
    f.bitIndex v = ((hashValue v).1 + f.multiplier * (hashValue v).2) % f.size := by
  have ha := hashValue_fst_lt v
  have hb := hashValue_snd_lt v
  have h1 : (hashValue v).2 * f.multiplier ≤ (2 ^ 32 - 1) * 2 ^ 32 :=
    Nat.mul_le_mul (by omega) h
  have e32 : (2 : Nat) ^ 32 = 4294967296 := by norm_num
  have e64 : (2 : Nat) ^ 64 = 18446744073709551616 := by norm_num
  have hlt : (hashValue v).1 + (hashValue v).2 * f.multiplier < 2 ^ 64 := by
    omega
  show ((hashValue v).1 + (hashValue v).2 * f.multiplier) % 2 ^ 64 % f.size = _
  rw [Nat.mod_eq_of_lt hlt, Nat.mul_comm ((hashValue v).2) f.multiplier]

/-- C4 (witness): the formula instantiated on the empty value for a
sub-filter of partition size 10 and multiplier 1. -/
theorem c4_bit_index_formula_witness :
    (⟨10, ⟨"k.1", 10, []⟩, 1⟩ : filter).multiplier ≤ 2 ^ 32
  ∧ (⟨10, ⟨"k.1", 10, []⟩, 1⟩ : filter).bitIndex [] =
      ((hashValue []).1 + 1 * (hashValue []).2) % 10 :=
  ⟨by norm_num, c4_bit_index_formula ⟨10, ⟨"k.1", 10, []⟩, 1⟩ [] (by norm_num)⟩

/-! ### The binary64 partition size agrees with the integer ceiling on the
exactly representable range -/

/-- The fuel-bounded log2 brackets its argument once the fuel suffices. -/
lemma log2fuel_spec : ∀ (fuel n : Nat), 1 ≤ n → n ≤ fuel →
    2 ^ log2fuel fuel n ≤ n ∧ n < 2 ^ (log2fuel fuel n + 1) := by
  intro fuel
  induction fuel with
  | zero => intro n h1 h2; omega
  | succ fuel ih =>
    intro n h1 h2
    by_cases h2n : 2 ≤ n
    · have hd2 : n / 2 ≤ fuel := by
        have := Nat.div_lt_self (by omega : 0 < n) (by norm_num : 1 < 2)
        omega
      obtain ⟨ha, hb⟩ := ih (n / 2) (by omega) hd2
      have he : log2fuel (fuel + 1) n = log2fuel fuel (n / 2) + 1 := by
        simp [log2fuel, h2n]
      rw [he]
      simp only [pow_succ] at hb ⊢
      omega
    · have he : log2fuel (fuel + 1) n = 0 := by simp [log2fuel, h2n]
      rw [he]
      norm_num
      omega

/-- nlog2 is the floor of log2 on positive naturals. -/
lemma nlog2_spec (n : Nat) (h : 1 ≤ n) :
    2 ^ nlog2 n ≤ n ∧ n < 2 ^ (nlog2 n + 1) :=
  log2fuel_spec n n h le_rfl

/-- The rounded quotient is the floor or the floor plus one. -/
lemma rnDivSig_eq_div_or (num den : Nat) :
    rnDivSig num den = num / den ∨ rnDivSig num den = num / den + 1 := by
  unfold rnDivSig
  split
  · right; rfl
  · left; rfl

/-- An exact quotient is not rounded. -/
lemma rnDivSig_of_dvd (num den : Nat) (hden : 0 < den) (h : den ∣ num) :
    rnDivSig num den = num / den := by
  have h0 : num % den = 0 := Nat.mod_eq_zero_of_dvd h
  unfold rnDivSig
  rw [h0, if_neg]
  rintro (hc | ⟨hc, -⟩) <;> omega

/-- A fraction strictly above one half rounds up. -/
lemma rnDivSig_of_up (num den : Nat) (h : den < 2 * (num % den)) :
    rnDivSig num den = num / den + 1 := by
  unfold rnDivSig
  rw [if_pos (Or.inl h)]

/-- Naturals up to 2^53 are exactly representable in binary64. -/
lemma float64Nat_eq_self (n : Nat) (h : n ≤ 2 ^ 53) : float64Nat n = n := by
  by_cases hlt : n < 2 ^ 53
  · unfold float64Nat
    rw [if_pos hlt]
  · have hn : n = 2 ^ 53 := by omega
    subst hn
    decide

/-- Characterisation of the natural ceiling division (x + d - 1) / d. -/
lemma natCeilDiv_eq (x d N : Nat) (hd : 0 < d) (hlo : d * N < x + d)
    (hhi : x ≤ d * N) : (x + d - 1) / d = N := by
  have h1 : N ≤ (x + d - 1) / d := by
    rw [Nat.le_div_iff_mul_le hd]
    have e : N * d = d * N := Nat.mul_comm _ _
    omega
  have h2 : (x + d - 1) / d < N + 1 := by
    rw [Nat.div_lt_iff_lt_mul hd]
    have e : (N + 1) * d = d * N + d := by ring
    omega
  omega

set_option maxRecDepth 10000 in
/-- On the exactly representable range the binary64 ceiling of m/k is the
integer ceiling. -/
lemma floatCeilDiv_eq (m k : Nat) (hm1 : 1 ≤ m) (hm : m ≤ 2 ^ 53)
    (hk1 : 1 ≤ k) (hk : k ≤ 2 ^ 53) :
    floatCeilDiv m k = (m + k - 1) / k := by
  have hk0 : 0 < k := hk1
  have ht1 : 1 ≤ m * 2 ^ 64 / k := by
    rw [Nat.le_div_iff_mul_le hk0, one_mul]
    calc k ≤ 2 ^ 53 := hk
    _ ≤ 2 ^ 64 := Nat.pow_le_pow_right (by norm_num) (by norm_num)
    _ = 1 * 2 ^ 64 := (one_mul _).symm
    _ ≤ m * 2 ^ 64 := Nat.mul_le_mul_right _ hm1
  obtain ⟨bp, hbp⟩ : ∃ b2, nlog2 (m * 2 ^ 64 / k) = b2 := ⟨_, rfl⟩
  obtain ⟨hbl, hbu⟩ := nlog2_spec _ ht1
  rw [hbp] at hbl hbu
  have hL : k * 2 ^ bp ≤ m * 2 ^ 64 := by
    have h2 := (Nat.le_div_iff_mul_le hk0).mp hbl
    rw [Nat.mul_comm k (2 ^ bp)]
    exact h2
  have hU : m * 2 ^ 64 < k * 2 ^ (bp + 1) := by
    have h2 := (Nat.div_lt_iff_lt_mul hk0).mp hbu
    rw [Nat.mul_comm k (2 ^ (bp + 1))]
    exact h2
  have hm64 : m * 2 ^ 64 ≤ 2 ^ 117 := by
    calc m * 2 ^ 64 ≤ 2 ^ 53 * 2 ^ 64 := Nat.mul_le_mul_right _ hm
    _ = 2 ^ 117 := by norm_num
  by_cases hbig : 116 ≤ bp
  · -- huge quotients: only k = 1, or k = 2 with m = 2^53, can reach here
    have hk2 : k ≤ 2 := by
      have e1 : k * 2 ^ 116 ≤ 2 ^ 117 := by
        calc k * 2 ^ 116 ≤ k * 2 ^ bp :=
          Nat.mul_le_mul_left k (Nat.pow_le_pow_right (by norm_num) hbig)
        _ ≤ m * 2 ^ 64 := hL
        _ ≤ 2 ^ 117 := hm64
      have e2 : (2:Nat) ^ 117 = 2 * 2 ^ 116 := by norm_num
      exact Nat.le_of_mul_le_mul_right (by omega) (Nat.two_pow_pos 116)
    have hbp117 : bp ≤ 117 := by
      by_contra hc
      push_neg at hc
      have e1 : (2:Nat) ^ 118 ≤ 2 ^ bp := Nat.pow_le_pow_right (by norm_num) hc
      have e2 : (2:Nat) ^ bp ≤ k * 2 ^ bp := Nat.le_mul_of_pos_left _ hk0
      have e3 : (2:Nat) ^ 117 < 2 ^ 118 := by norm_num
      omega
    have hk12 : k = 1 ∨ k = 2 := by omega
    rcases hk12 with rfl | rfl
    · -- k = 1
      have hbpe : bp = 116 ∨ bp = 117 := by omega
      rcases hbpe with hbpe | hbpe
      · -- the ulp is exactly 1 and the integer m comes back unrounded
        have hq : rnDivSig m 1 = m := by
          unfold rnDivSig
          simp [Nat.mod_one]
        unfold floatCeilDiv
        rw [hbp, hbpe, if_pos (by norm_num)]
        norm_num [hq]
      · -- bp = 117 forces m = 2^53
        have e1 : (2:Nat) ^ 117 ≤ m * 2 ^ 64 := by
          rw [hbpe] at hL
          simpa using hL
        have e2 : (2:Nat) ^ 117 = 2 ^ 53 * 2 ^ 64 := by norm_num
        have e3 : (2:Nat) ^ 53 ≤ m :=
          Nat.le_of_mul_le_mul_right (by omega) (Nat.two_pow_pos 64)
        have hm53 : m = 2 ^ 53 := by omega
        rw [hm53]
        decide
    · -- k = 2 forces m = 2^53
      have e1 : (2:Nat) * 2 ^ 116 ≤ m * 2 ^ 64 := by
        calc (2:Nat) * 2 ^ 116 ≤ 2 * 2 ^ bp :=
          Nat.mul_le_mul_left 2 (Nat.pow_le_pow_right (by norm_num) hbig)
        _ ≤ m * 2 ^ 64 := hL
      have e2 : (2:Nat) * 2 ^ 116 = 2 ^ 53 * 2 ^ 64 := by norm_num
      have e3 : (2:Nat) ^ 53 ≤ m :=
        Nat.le_of_mul_le_mul_right (by omega) (Nat.two_pow_pos 64)
      have hm53 : m = 2 ^ 53 := by omega
      rw [hm53]
      decide
  · -- ordinary quotients: the ulp is 2^-(116-bp), rounding at scale p
    push_neg at hbig
    have hgoal : floatCeilDiv m k =
        (rnDivSig (m * 2 ^ (116 - bp)) k + 2 ^ (116 - bp) - 1)
          / 2 ^ (116 - bp) := by
      unfold floatCeilDiv
      rw [hbp, if_neg (by omega)]
    rw [hgoal]
    obtain ⟨p, hpdef⟩ : ∃ p, 2 ^ (116 - bp) = p := ⟨_, rfl⟩
    rw [hpdef]
    have hp0 : 0 < p := hpdef ▸ Nat.two_pow_pos _
    obtain ⟨F, hF⟩ : ∃ F, m / k = F := ⟨_, rfl⟩
    obtain ⟨rem, hrem⟩ : ∃ r2, m % k = r2 := ⟨_, rfl⟩
    have hdm : k * F + rem = m := by
      rw [← hF, ← hrem]
      exact Nat.div_add_mod m k
    have hremlt : rem < k := hrem ▸ Nat.mod_lt _ hk0
    have hmp : m * p = rem * p + F * p * k := by
      calc m * p = (k * F + rem) * p := by rw [hdm]
      _ = rem * p + F * p * k := by ring
    have hfval : m * p / k = rem * p / k + F * p := by
      rw [hmp, Nat.add_mul_div_right _ _ hk0]
    have hrval : m * p % k = rem * p % k := by
      rw [hmp, Nat.add_mul_mod_self_right]
    by_cases hdvd : rem = 0
    · -- k divides m: the quotient is exact and nothing rounds
      have hdv : k ∣ m * p := ⟨F * p, by rw [hmp, hdvd]; ring⟩
      rw [rnDivSig_of_dvd _ _ hk0 hdv, hfval, hdvd]
      simp only [Nat.zero_mul, Nat.zero_div, Nat.zero_add]
      have hlhs : (F * p + p - 1) / p = F := by
        apply natCeilDiv_eq _ _ _ hp0
        · have e : p * F = F * p := Nat.mul_comm _ _
          omega
        · exact le_of_eq (Nat.mul_comm _ _)
      apply hlhs.trans
      symm
      apply natCeilDiv_eq _ _ _ hk0
      · omega
      · omega
    · -- k does not divide m: the result must land on F + 1
      have hrem1 : 1 ≤ rem := by omega
      obtain ⟨S, hS⟩ : ∃ S, rnDivSig (m * p) k = S := ⟨_, rfl⟩
      rw [hS]
      have hSor := rnDivSig_eq_div_or (m * p) k
      rw [hS] at hSor
      -- upper bound: S ≤ (F + 1) * p
      have hmlt : m < (F + 1) * k := by
        have e : (F + 1) * k = k * F + k := by ring
        omega
      have hdivlt : m * p / k < (F + 1) * p := by
        rw [Nat.div_lt_iff_lt_mul hk0]
        calc m * p < ((F + 1) * k) * p := (Nat.mul_lt_mul_right hp0).mpr hmlt
        _ = (F + 1) * p * k := by ring
      have hSub : S ≤ (F + 1) * p := by
        rcases hSor with hSe | hSe <;> omega
      -- lower bound: S ≥ F * p + 1
      have hSlb : F * p + 1 ≤ S := by
        by_cases hA : 1 ≤ rem * p / k
        · have h1 : F * p + 1 ≤ m * p / k := by omega
          rcases hSor with hSe | hSe <;> omega
        · have hApz : rem * p / k = 0 := Nat.lt_one_iff.mp (Nat.not_le.mp hA)
          have hrpk : rem * p < k := (Nat.div_eq_zero_iff hk0).mp hApz
          have h2p : k < 2 * p := by
            by_cases hbp64 : bp < 64
            · have hple : (2:Nat) ^ 53 ≤ p := by
                rw [← hpdef]
                exact Nat.pow_le_pow_right (by norm_num) (by omega)
              omega
            · push_neg at hbp64
              have e1 : k * 2 ^ (bp - 64) * 2 ^ 64 = k * 2 ^ bp := by
                rw [Nat.mul_assoc, ← pow_add]
                congr 2
                omega
              have e2 : k * 2 ^ (bp - 64) ≤ m :=
                Nat.le_of_mul_le_mul_right (by rw [e1]; exact hL)
                  (Nat.two_pow_pos 64)
              have e3 : k * 2 ^ (bp - 64) < k * (F + 1) := by
                have e : k * (F + 1) = k * F + k := by ring
                omega
              have e4 : 2 ^ (bp - 64) < F + 1 := Nat.lt_of_mul_lt_mul_left e3
              have e5 : k * 2 ^ (bp - 64) < 2 ^ 53 := by
                have e6 : k * 2 ^ (bp - 64) ≤ k * F :=
                  Nat.mul_le_mul_left k (by omega)
                omega
              have e7 : (2:Nat) ^ 53 = 2 ^ (bp - 64) * 2 ^ (117 - bp) := by
                rw [← pow_add]
                congr 1
                omega
              have e8 : k < 2 ^ (117 - bp) := by
                rw [e7] at e5
                rw [Nat.mul_comm k _] at e5
                exact Nat.lt_of_mul_lt_mul_left e5
              have e9 : 2 * p = 2 ^ (117 - bp) := by
                rw [← hpdef, ← pow_succ']
                congr 1
                omega
              omega
          have hup : k < 2 * (m * p % k) := by
            rw [hrval, Nat.mod_eq_of_lt hrpk]
            have h1 : p ≤ rem * p := Nat.le_mul_of_pos_left p (by omega)
            omega
          have hSv : S = m * p / k + 1 := by
            rw [← hS]
            exact rnDivSig_of_up _ _ hup
          rw [hSv, hfval, hApz]
          omega
      -- both divisions land on F + 1
      have hlhs : (S + p - 1) / p = F + 1 := by
        apply natCeilDiv_eq _ _ _ hp0
        · have e : p * (F + 1) = F * p + p := by ring
          omega
        · have e : p * (F + 1) = (F + 1) * p := Nat.mul_comm _ _
          omega
      apply hlhs.trans
      symm
      apply natCeilDiv_eq _ _ _ hk0
      · have e : k * (F + 1) = k * F + k := by ring
        omega
      · have e : k * (F + 1) = k * F + k := by ring
        omega

/-- On the exactly representable range the whole partition-size computation
is the integer ceiling. -/
lemma partitionSizeGo_eq (m k : Nat) (hm : m ≤ 2 ^ 53) (hk1 : 1 ≤ k)
    (hk : k ≤ 2 ^ 53) : partitionSizeGo m k = (m + k - 1) / k := by
  by_cases hm0 : m = 0
  · subst hm0
    rw [partitionSizeGo, if_pos (Or.inl rfl)]
    rw [Nat.zero_add]
    exact (Nat.div_eq_of_lt (by omega)).symm
  · rw [partitionSizeGo, if_neg (by rintro (h | h) <;> omega)]
    rw [float64Nat_eq_self m hm, float64Nat_eq_self k hk]
    exact floatCeilDiv_eq m k (by omega) hm hk1 hk

/-- C7 (amended): filterSetup for total size m and k hash iterations yields
exactly k sub-filters, all sharing one partition size, with multipliers
exactly 1..k in construction order (all sharing the one pure hash function
of the model), and no later operation (Append, Add; Save writes no filter
field at all) changes any sub-filter's size or multiplier; whenever m and k
are at most 2^53 — the range on which float64 represents integers exactly —
that common partition size is the integer ceiling of m/k. -/
theorem c7_filter_setup_layout (m k : Nat) (hm : m ≤ 2 ^ 53)
    (hk : k ≤ 2 ^ 53) :
    (filterSetup m k).length = k
  ∧ (filterSetup m k).map (fun f => f.size) = List.replicate k ((m + k - 1) / k)
  ∧ (filterSetup m k).map (fun f => f.multiplier) = (List.range k).map (fun i => i + 1)
  ∧ (∀ (b : BF) (v : List Nat),
      (BF.Append b v).filters.map (fun f => (f.size, f.multiplier))
        = b.filters.map (fun f => (f.size, f.multiplier)))
  ∧ (∀ (b : BF) (vs : List (List Nat)),
      (BF.Add b vs).filters.map (fun f => (f.size, f.multiplier))
        = b.filters.map (fun f => (f.size, f.multiplier))) := by
  refine ⟨by simp [filterSetup], ?_, ?_, ?_, ?_⟩
  · rcases Nat.eq_zero_or_pos k with rfl | hk1
    · simp [filterSetup]
    · simp only [filterSetup, List.map_map]
      have e : ((fun f : filter => f.size) ∘ fun i : Nat =>
          (⟨partitionSizeGo m k, ⟨"", 0, []⟩, i + 1⟩ : filter)) =
          fun _ : Nat => partitionSizeGo m k := rfl
      rw [e, List.map_const', List.length_range, partitionSizeGo_eq m k hm hk1 hk]
  · simp only [filterSetup, List.map_map]
    rfl
  · intro b v
    simp only [BF.Append, List.map_map]
    rfl
  · intro b vs
    induction vs generalizing b with
    | nil => rfl
    | cons v vs ih =>
      show (BF.Add (appendValue b v) vs).filters.map _ = _
      rw [ih]
      simp only [appendValue, List.map_map]
      rfl

/-- C7 (witness): at m = 20, k = 4 the bounds hold and the four sub-filters
all get partition size 5 = ceil(20/4) with multipliers 1..4. -/
theorem c7_filter_setup_layout_witness :
    (20 ≤ 2 ^ 53 ∧ 4 ≤ 2 ^ 53)
  ∧ ((filterSetup 20 4).length = 4
    ∧ (filterSetup 20 4).map (fun f => f.size) = List.replicate 4 ((20 + 4 - 1) / 4)
    ∧ (filterSetup 20 4).map (fun f => f.multiplier) = (List.range 4).map (fun i => i + 1)
    ∧ (∀ (b : BF) (v : List Nat),
        (BF.Append b v).filters.map (fun f => (f.size, f.multiplier))
          = b.filters.map (fun f => (f.size, f.multiplier)))
    ∧ (∀ (b : BF) (vs : List (List Nat)),
        (BF.Add b vs).filters.map (fun f => (f.size, f.multiplier))
          = b.filters.map (fun f => (f.size, f.multiplier)))) :=
  ⟨⟨by norm_num, by norm_num⟩,
   c7_filter_setup_layout 20 4 (by norm_num) (by norm_num)⟩

set_option maxRecDepth 10000 in
/-- C7 (counterexample): at m = 2^53 + 1, k = 1 the sub-filter's partition
size produced by the code's float64 arithmetic is 2^53, not the integer
ceiling 2^53 + 1 the claim asserts: float64(2^53 + 1) already rounds down
to 2^53 (ties to even), so the claim as stated is false for sizes beyond
the exactly representable range. -/
theorem c7_float_partition_cex :
    ¬((filterSetup 9007199254740993 1).map (fun f => f.size) =
        List.replicate 1 ((9007199254740993 + 1 - 1) / 1)) := by decide

/-! ### Lemmas about the zero-initialising fold of RedisStorage.init -/

/-- A bit that reads 0 still reads 0 after the SETBIT..0 fold of init. -/
lemma getbit_fold_zero (k0 : String) (l : List Nat) :
    ∀ (srv : Server) (k : String) (b : Nat), srv.getbit k b = false →
      (l.foldl (fun sv i => Server.setbit sv k0 i 0) srv).getbit k b = false := by
  induction l with
  | nil => intro srv k b h; exact h
  | cons i l ih =>
    intro srv k b h
    apply ih
    simp only [Server.getbit, Server.setbit, decide_eq_false_iff_not] at h ⊢
    by_cases hk : k = k0
    · subst hk
      simp only [if_pos rfl, Option.getD_some,
        if_neg (show ¬(0 : Nat) = 1 by norm_num)]
      intro hmem
      exact h (List.mem_of_mem_filter hmem)
    · simpa [hk] using h

/-- The SETBIT..0 fold of init touches no other key. -/
lemma data_fold_zero_other (k0 : String) (l : List Nat) :
    ∀ (srv : Server) (k : String), k ≠ k0 →
      (l.foldl (fun sv i => Server.setbit sv k0 i 0) srv).data k = srv.data k := by
  induction l with
  | nil => intro srv k _; rfl
  | cons i l ih =>
    intro srv k hk
    rw [List.foldl_cons, ih _ _ hk]
    simp [Server.setbit, hk]

/-- The SETBIT..0 fold of init never changes any TTL. -/
lemma ttl_fold_zero (k0 : String) (l : List Nat) :
    ∀ srv : Server,
      (l.foldl (fun sv i => Server.setbit sv k0 i 0) srv).ttl = srv.ttl := by
  induction l with
  | nil => intro srv; rfl
  | cons i l ih => intro srv; rw [List.foldl_cons, ih]; rfl

/-- Once the key exists it keeps existing through the SETBIT..0 fold. -/
lemma keyExists_fold_zero_mono (k0 : String) (l : List Nat) :
    ∀ srv : Server, (srv.data k0).isSome = true →
      ((l.foldl (fun sv i => Server.setbit sv k0 i 0) srv).data k0).isSome = true := by
  induction l with
  | nil => intro srv h; exact h
  | cons i l ih =>
    intro srv _
    apply ih
    simp [Server.setbit]

/-- A nonempty SETBIT..0 fold creates the key. -/
lemma keyExists_fold_zero (k0 : String) (l : List Nat) (hl : l ≠ [])
    (srv : Server) :
    ((l.foldl (fun sv i => Server.setbit sv k0 i 0) srv).data k0).isSome = true := by
  cases l with
  | nil => exact absurd rfl hl
  | cons i l =>
    rw [List.foldl_cons]
    apply keyExists_fold_zero_mono
    simp [Server.setbit]

/-- EXPIRE leaves the bit data of every key alone. -/
lemma data_expire (srv : Server) (k0 : String) (t : Int) :
    (Server.expire srv k0 t).data = srv.data := by
  unfold Server.expire; split <;> rfl

/-- EXPIRE on an existing key records its TTL. -/
lemma ttl_expire_self (srv : Server) (k0 : String) (t : Int)
    (h : (srv.data k0).isSome = true) :
    (Server.expire srv k0 t).ttl k0 = some t := by
  unfold Server.expire
  rw [if_pos h]
  simp

/-- A key that does not exist has every bit 0. -/
lemma getbit_of_no_key (srv : Server) (k : String) (b : Nat)
    (h : srv.keyExists k = false) : srv.getbit k b = false := by
  unfold Server.keyExists at h
  unfold Server.getbit
  cases hd : srv.data k with
  | none => simp [hd]
  | some l => rw [hd] at h; simp at h

/-- C6: with the EXISTS check and the init flush succeeding, NewRedisStorage
against a pre-existing key returns keyAlreadyExisted = true, the nil error
and a completely untouched server, while against a missing key it reports
false, zero-initialises every bit of the key, applies the expiry TTL, and
touches no other key's data. -/
theorem c6_construct_init_iff_missing (net : Net) (srv : Server) (key : String)
    (size : Nat) (expire : Int)
    (hex : net.existsFail key = false) (hfl : net.flushFail key = false)
    (hsz : 0 < size) :
    (srv.keyExists key = true →
      NewRedisStorage net srv key size expire = ((⟨key, size, []⟩, true, none), srv))
  ∧ (srv.keyExists key = false →
      (NewRedisStorage net srv key size expire).1.2.1 = false
    ∧ (NewRedisStorage net srv key size expire).1.2.2 = none
    ∧ (∀ i, (NewRedisStorage net srv key size expire).2.getbit key i = false)
    ∧ (NewRedisStorage net srv key size expire).2.ttl key = some expire
    ∧ (∀ k2, k2 ≠ key →
        (NewRedisStorage net srv key size expire).2.data k2 = srv.data k2)) := by
  have hrange : List.range size ≠ [] := by
    simpa [List.range_eq_nil] using Nat.pos_iff_ne_zero.mp hsz
  constructor
  · intro hyes
    simp [NewRedisStorage, hex, hyes]
  · intro hno
    have hres : NewRedisStorage net srv key size expire =
        ((⟨key, size, []⟩, false, none),
         Server.expire
           ((List.range size).foldl (fun sv i => Server.setbit sv key i 0) srv)
           key expire) := by
      simp [NewRedisStorage, hex, hno, RedisStorage.init, hfl]
    rw [hres]
    refine ⟨rfl, rfl, ?_, ?_, ?_⟩
    · intro i
      show Server.getbit _ key i = false
      unfold Server.getbit
      rw [data_expire]
      have := getbit_fold_zero key (List.range size) srv key i
        (getbit_of_no_key srv key i hno)
      unfold Server.getbit at this
      exact this
    · exact ttl_expire_self _ _ _ (keyExists_fold_zero key (List.range size) hrange srv)
    · intro k2 hk2
      show (Server.expire _ key expire).data k2 = srv.data k2
      rw [data_expire]
      exact data_fold_zero_other key (List.range size) srv k2 hk2

/-- C6 (witness): against a server holding only the key e (one bit set), the
first construction on the fresh key m reports false and zeroes it with the
TTL applied, and a second construction on the existing key e reports true and
changes nothing. -/
theorem c6_construct_init_iff_missing_witness :
    ((⟨fun k2 => if k2 = "e" then some [5] else none, fun _ => none⟩ : Server).keyExists "e" = true
      ∧ NewRedisStorage Net.ok
          ⟨fun k2 => if k2 = "e" then some [5] else none, fun _ => none⟩ "e" 4 60 =
        ((⟨"e", 4, []⟩, true, none),
         ⟨fun k2 => if k2 = "e" then some [5] else none, fun _ => none⟩))
  ∧ ((⟨fun k2 => if k2 = "e" then some [5] else none, fun _ => none⟩ : Server).keyExists "m" = false
      ∧ (NewRedisStorage Net.ok
          ⟨fun k2 => if k2 = "e" then some [5] else none, fun _ => none⟩ "m" 4 60).1.2.1 = false
      ∧ (NewRedisStorage Net.ok
          ⟨fun k2 => if k2 = "e" then some [5] else none, fun _ => none⟩ "m" 4 60).2.getbit "m" 2 = false
      ∧ (NewRedisStorage Net.ok
          ⟨fun k2 => if k2 = "e" then some [5] else none, fun _ => none⟩ "m" 4 60).2.ttl "m" = some 60) :=
  ⟨⟨by decide,
    (c6_construct_init_iff_missing Net.ok
      ⟨fun k2 => if k2 = "e" then some [5] else none, fun _ => none⟩ "e" 4 60
      rfl rfl (by decide)).1 (by decide)⟩,
   ⟨by decide,
    ((c6_construct_init_iff_missing Net.ok
      ⟨fun k2 => if k2 = "e" then some [5] else none, fun _ => none⟩ "m" 4 60
      rfl rfl (by decide)).2 (by decide)).1,
    (((c6_construct_init_iff_missing Net.ok
      ⟨fun k2 => if k2 = "e" then some [5] else none, fun _ => none⟩ "m" 4 60
      rfl rfl (by decide)).2 (by decide)).2.2.1) 2,
    (((c6_construct_init_iff_missing Net.ok
      ⟨fun k2 => if k2 = "e" then some [5] else none, fun _ => none⟩ "m" 4 60
      rfl rfl (by decide)).2 (by decide)).2.2.2.1)⟩⟩

/-! ### Lemmas about flushing (RedisStorage.Save and the BF.Save fan-out) -/

/-- Reading a bit after the SETBIT..1 fold of Save: the old bit, or
membership of the flushed queue on the flushed key. -/
lemma getbit_save_fold (k0 : String) (q : List Nat) :
    ∀ (srv : Server) (k : String) (b : Nat),
      (q.foldl (fun sv bit => Server.setbit sv k0 bit 1) srv).getbit k b =
        (srv.getbit k b || (decide (k = k0) && decide (b ∈ q))) := by
  induction q with
  | nil => intro srv k b; simp
  | cons i q ih =>
    intro srv k b
    rw [List.foldl_cons, ih]
    by_cases hk : k = k0
    · subst hk
      by_cases hb : b = i <;> by_cases hq : b ∈ q <;>
        simp [Server.setbit, Server.getbit, List.mem_cons, hb, hq]
    · simp [Server.setbit, Server.getbit, hk]

/-- Reading a bit after one storage flush: the queue contributes exactly when
it is flushed onto that key and the flush is not failed (an empty queue
contributes nothing and is skipped anyway). -/
lemma getbit_save (net : Net) (srv : Server) (s : RedisStorage) (k : String)
    (b : Nat) :
    ((s.Save net srv).2).getbit k b =
      (srv.getbit k b ||
        (decide (k = s.key) && !net.flushFail s.key && decide (b ∈ s.queue))) := by
  unfold RedisStorage.Save
  by_cases hq : s.queue.length ≤ 0
  · have h0 : s.queue = [] := List.length_eq_zero.mp (Nat.le_zero.mp hq)
    simp [hq, h0]
  · rw [if_neg hq]
    by_cases hf : net.flushFail s.key
    · simp [hf]
    · have hf' : net.flushFail s.key = false := by
        cases h : net.flushFail s.key
        · rfl
        · exact absurd h hf
      rw [if_neg hf]
      dsimp only
      rw [getbit_save_fold]
      simp [hf']

/-- Reading a bit after the whole BF.Save fan-out: the old bit, or some
sub-filter whose storage flushes that bit onto that key. -/
lemma getbit_saveAll (net : Net) :
    ∀ (fs : List filter) (srv : Server) (k : String) (b : Nat),
      (saveAll net fs srv).getbit k b =
        (srv.getbit k b ||
          fs.any (fun f => decide (k = f.storage.key) &&
            !net.flushFail f.storage.key && decide (b ∈ f.storage.queue))) := by
  intro fs
  induction fs with
  | nil => intro srv k b; simp [saveAll]
  | cons f rest ih =>
    intro srv k b
    show (saveAll net rest (f.storage.Save net srv).2).getbit k b = _
    rw [ih, getbit_save]
    simp [Bool.or_assoc]

/-- C9: flushing after inserting a value twice yields the same backend bits
as flushing after inserting it once — bits are set, not counted, so the
duplicated index in each sub-filter's queue changes nothing. -/
theorem c9_insert_idempotent (net : Net) (srv : Server) (b : BF)
    (v : List Nat) (k : String) (bit : Nat) :
    (BF.Save net srv (BF.Add (BF.Add b [v]) [v])).getbit k bit =
      (BF.Save net srv (BF.Add b [v])).getbit k bit := by
  show (saveAll net (appendValue (appendValue b v) v).filters srv).getbit k bit =
    (saveAll net (appendValue b v).filters srv).getbit k bit
  rw [getbit_saveAll, getbit_saveAll]
  congr 1
  simp only [appendValue, List.any_map]
  congr 1
  funext f0
  simp only [Function.comp, RedisStorage.Append]
  congr 1
  refine decide_eq_decide.mpr ?_
  simp only [filter.bitIndex]
  simp [List.mem_append]

/-! ### Lemmas about the BF.Exists loop -/

/-- The Exists loop walks past a prefix of sub-filters whose queries all
answer (true, nil). -/
lemma existsLoop_pass (net : Net) (srv : Server) (v : List Nat) :
    ∀ (fs1 rest : List filter),
      (∀ g ∈ fs1, RedisStorage.Exists net srv g.storage (g.bitIndex v) = (true, none)) →
      existsLoop net srv v (fs1 ++ rest) none = existsLoop net srv v rest none := by
  intro fs1
  induction fs1 with
  | nil => intro rest _; rfl
  | cons g gs ih =>
    intro rest h
    rw [List.cons_append]
    simp only [existsLoop]
    rw [h g (by simp)]
    exact ih rest (fun g2 hg2 => h g2 (by simp [hg2]))

/-- When every sub-filter's query answers (true, nil) the loop returns
(true, nil). -/
lemma existsLoop_all_true (net : Net) (srv : Server) (v : List Nat)
    (fs : List filter)
    (h : ∀ f ∈ fs, RedisStorage.Exists net srv f.storage (f.bitIndex v) = (true, none)) :
    existsLoop net srv v fs none = (true, none) := by
  have := existsLoop_pass net srv v fs [] h
  simpa using this

/-- C5: with every earlier sub-filter answering (true, nil), a sub-filter
whose queried bit reads 0 without I/O failure makes BF.Exists return
exists = false with the nil error at once — whatever the remaining
sub-filters would do — and a sub-filter whose GETBIT fails makes BF.Exists
return the error at once (with the Go zero value false as exists), again
regardless of the remaining sub-filters. -/
theorem c5_exists_short_circuit_and_error_abort (net : Net) (srv : Server)
    (v : List Nat) (fs1 : List filter) (f : filter) (fs2 : List filter)
    (h1 : ∀ g ∈ fs1, RedisStorage.Exists net srv g.storage (g.bitIndex v) = (true, none)) :
    (net.getbitFail f.storage.key (f.bitIndex v) = false →
      srv.getbit f.storage.key (f.bitIndex v) = false →
      BF.Exists net srv ⟨fs1 ++ f :: fs2⟩ v = (false, none))
  ∧ (net.getbitFail f.storage.key (f.bitIndex v) = true →
      BF.Exists net srv ⟨fs1 ++ f :: fs2⟩ v = (false, some ())) := by
  have base := existsLoop_pass net srv v fs1 (f :: fs2) h1
  constructor
  · intro hnf hbit
    show existsLoop net srv v (fs1 ++ f :: fs2) none = (false, none)
    rw [base]
    have hquery : RedisStorage.Exists net srv f.storage (f.bitIndex v) = (false, none) := by
      simp [RedisStorage.Exists, hnf, hbit]
    simp [existsLoop, hquery]
  · intro hnf
    show existsLoop net srv v (fs1 ++ f :: fs2) none = (false, some ())
    rw [base]
    have hquery : RedisStorage.Exists net srv f.storage (f.bitIndex v) = (false, some ()) := by
      simp [RedisStorage.Exists, hnf]
    simp [existsLoop, hquery]

/-- C5 (witness): a three-sub-filter instance on the empty value: the first
sub-filter's bit is set, the second's is not, and the third is never reached;
once with a clean network (false, nil), once with GETBIT failing on the
second sub-filter's key (false, error). -/
theorem c5_exists_short_circuit_and_error_abort_witness :
    BF.Exists Net.ok
      ⟨fun k2 => if k2 = "k.1" then some [7] else none, fun _ => none⟩
      ⟨[⟨10, ⟨"k.1", 10, []⟩, 1⟩, ⟨10, ⟨"k.2", 10, []⟩, 2⟩, ⟨10, ⟨"k.3", 10, []⟩, 3⟩]⟩
      [] = (false, none)
  ∧ BF.Exists ⟨fun _ => false, fun k2 _ => k2 == "k.2", fun _ => false⟩
      ⟨fun k2 => if k2 = "k.1" then some [7] else none, fun _ => none⟩
      ⟨[⟨10, ⟨"k.1", 10, []⟩, 1⟩, ⟨10, ⟨"k.2", 10, []⟩, 2⟩, ⟨10, ⟨"k.3", 10, []⟩, 3⟩]⟩
      [] = (false, some ()) :=
  ⟨(c5_exists_short_circuit_and_error_abort Net.ok
      ⟨fun k2 => if k2 = "k.1" then some [7] else none, fun _ => none⟩ []
      [⟨10, ⟨"k.1", 10, []⟩, 1⟩] ⟨10, ⟨"k.2", 10, []⟩, 2⟩ [⟨10, ⟨"k.3", 10, []⟩, 3⟩]
      (by decide)).1 (by decide) (by decide),
   (c5_exists_short_circuit_and_error_abort
      ⟨fun _ => false, fun k2 _ => k2 == "k.2", fun _ => false⟩
      ⟨fun k2 => if k2 = "k.1" then some [7] else none, fun _ => none⟩ []
      [⟨10, ⟨"k.1", 10, []⟩, 1⟩] ⟨10, ⟨"k.2", 10, []⟩, 2⟩ [⟨10, ⟨"k.3", 10, []⟩, 3⟩]
      (by decide)).2 (by decide)⟩

/-- C1: after inserting a value (BF.Append, equivalently BF.Add) and flushing
with BF.Save, a query for that value returns (true, nil) — no false
negatives — provided the configuration is unchanged, no flush or GETBIT
fails, and every partition size is positive (the source would panic on a
zero modulus). -/
theorem c1_no_false_negatives (net : Net) (srv : Server) (b : BF)
    (v : List Nat)
    (hfl : ∀ k2, net.flushFail k2 = false)
    (hgf : ∀ k2 i, net.getbitFail k2 i = false)
    (hsz : ∀ f ∈ b.filters, 0 < f.size) :
    BF.Exists net (BF.Save net srv (BF.Append b v)) (BF.Append b v) v = (true, none)
  ∧ BF.Exists net (BF.Save net srv (BF.Add b [v])) (BF.Add b [v]) v = (true, none) := by
  have main : BF.Exists net (BF.Save net srv (appendValue b v)) (appendValue b v) v
      = (true, none) := by
    apply existsLoop_all_true
    intro f hf
    obtain ⟨f0, hf0, rfl⟩ := List.mem_map.mp hf
    set g : filter → filter :=
      fun f0 => { f0 with storage := f0.storage.Append (f0.bitIndex v) } with hg
    have hbit : (BF.Save net srv (appendValue b v)).getbit
        (g f0).storage.key ((g f0).bitIndex v) = true := by
      show (saveAll net (appendValue b v).filters srv).getbit _ _ = true
      rw [getbit_saveAll]
      rw [Bool.or_eq_true]
      right
      rw [List.any_eq_true]
      refine ⟨g f0, ?_, ?_⟩
      · exact List.mem_map_of_mem g hf0
      · have hmem : (g f0).bitIndex v ∈ (g f0).storage.queue := by
          simp [hg, RedisStorage.Append, filter.bitIndex]
        simp [hfl, hmem]
    exact (by simp [RedisStorage.Exists, hgf, hbit] :
      RedisStorage.Exists net (BF.Save net srv (appendValue b v)) (g f0).storage
        ((g f0).bitIndex v) = (true, none))
  exact ⟨main, main⟩

/-- C1 (witness): a two-sub-filter configuration with positive partition
sizes, the empty backend and a clean network: insert the empty value, flush,
query — (true, nil), for both the Append and the Add spelling. -/
theorem c1_no_false_negatives_witness :
    (∀ f ∈ (⟨[⟨10, ⟨"k.1", 10, []⟩, 1⟩, ⟨10, ⟨"k.2", 10, []⟩, 2⟩]⟩ : BF).filters,
      0 < f.size)
  ∧ BF.Exists Net.ok
      (BF.Save Net.ok ⟨fun _ => none, fun _ => none⟩
        (BF.Append ⟨[⟨10, ⟨"k.1", 10, []⟩, 1⟩, ⟨10, ⟨"k.2", 10, []⟩, 2⟩]⟩ []))
      (BF.Append ⟨[⟨10, ⟨"k.1", 10, []⟩, 1⟩, ⟨10, ⟨"k.2", 10, []⟩, 2⟩]⟩ []) []
      = (true, none)
  ∧ BF.Exists Net.ok
      (BF.Save Net.ok ⟨fun _ => none, fun _ => none⟩
        (BF.Add ⟨[⟨10, ⟨"k.1", 10, []⟩, 1⟩, ⟨10, ⟨"k.2", 10, []⟩, 2⟩]⟩ [[]]))
      (BF.Add ⟨[⟨10, ⟨"k.1", 10, []⟩, 1⟩, ⟨10, ⟨"k.2", 10, []⟩, 2⟩]⟩ [[]]) []
      = (true, none) :=
  ⟨by decide,
   (c1_no_false_negatives Net.ok ⟨fun _ => none, fun _ => none⟩
      ⟨[⟨10, ⟨"k.1", 10, []⟩, 1⟩, ⟨10, ⟨"k.2", 10, []⟩, 2⟩]⟩ []
      (fun _ => rfl) (fun _ _ => rfl) (by decide)).1,
   (c1_no_false_negatives Net.ok ⟨fun _ => none, fun _ => none⟩
      ⟨[⟨10, ⟨"k.1", 10, []⟩, 1⟩, ⟨10, ⟨"k.2", 10, []⟩, 2⟩]⟩ []
      (fun _ => rfl) (fun _ _ => rfl) (by decide)).2⟩

end GoBloom
